/-
Verification of the frame-sampling and deduplication pipeline of
`youtube_screenshot_processor.py`.

Shallow embedding conventions:
* File contents are abstracted by their SHA-256 fingerprint: an `Artifact`
  carries the fingerprint that `get_image_hash` would compute for its path
  (`none` models an unreadable file, where the Python helper returns `None`).
* `os.remove` is modelled as always succeeding (the `except: pass` guard
  around it is defensive; a failed removal is not exercised by any claim).
* Machine floats (the `duration` returned by ffprobe) are modelled as `ℚ`;
  the loop counter `current_time` is an `ℤ` as in the source (it starts at
  the int literal 0 and is only ever incremented by the int `interval`).
* Subprocess calls are modelled by oracles: `capOk t` tells whether the
  ffmpeg invocation at timestamp `t` succeeds (raises `CalledProcessError`
  otherwise), and the loop body is fuelled; `LoopOutcome.outOfFuel` marks a
  run that has not finished within the given fuel (the Python loop simply
  keeps running in that case).
-/
import Mathlib

/-- A content fingerprint: the value of a SHA-256 digest. -/
abbrev Fp := ℕ

/-- A frame artifact: an image file written by the extractor.  The
`fingerprint` field records what hashing the file's bytes would yield;
`none` models an unreadable file. -/
structure Artifact where
  path : String
  fingerprint : Option Fp
deriving DecidableEq, Repr

/-- `get_image_hash` (lines 198-204): reads the file and returns the
SHA-256 hex digest, or `None` when the read raises.  In the embedding the
artifact carries that outcome. -/
def get_image_hash (a : Artifact) : Option Fp :=
  a.fingerprint

/-- Result of one pass of the duplicate-removal loop (lines 211-226):
`flags` pairs every processed artifact with `true` when it is kept
(survives on disk) and `false` when `os.remove` deletes it;
`removed` is the running `duplicates_removed` counter; `hashCalls` counts
the invocations of `get_image_hash`. -/
structure DedupPass where
  flags : List (Artifact × Bool)
  removed : ℕ
  hashCalls : ℕ
deriving DecidableEq, Repr

/-- The `for img_path in screenshot_files` loop of
`remove_duplicate_screenshots` (lines 214-224).  `seen` is the key set of
the `hashes` dict (only membership is ever consulted). -/
def dedupLoop : List Artifact → List Fp → DedupPass
  | [], _ => ⟨[], 0, 0⟩
  | a :: rest, seen =>
    match get_image_hash a with
    | none =>
      let r := dedupLoop rest seen
      ⟨(a, true) :: r.flags, r.removed, r.hashCalls + 1⟩
    | some fp =>
      if fp ∈ seen then
        let r := dedupLoop rest seen
        ⟨(a, false) :: r.flags, r.removed + 1, r.hashCalls + 1⟩
      else
        let r := dedupLoop rest (fp :: seen)
        ⟨(a, true) :: r.flags, r.removed, r.hashCalls + 1⟩

/-- `remove_duplicate_screenshots` (lines 206-226): the value the Python
function returns (the `duplicates_removed` count).  Inputs of length ≤ 1
take the early-return fast path on line 208. -/
def remove_duplicate_screenshots (files : List Artifact) : ℕ :=
  if files.length ≤ 1 then 0
  else (dedupLoop files []).removed

/-- The per-artifact kept/removed decisions of a deduplication run.  On the
fast path nothing is hashed or deleted, so every artifact is kept. -/
def dedupKeptFlags (files : List Artifact) : List Bool :=
  if files.length ≤ 1 then files.map (fun _ => true)
  else (dedupLoop files []).flags.map (·.2)

/-- The artifacts still on disk after a deduplication run (those whose
backing file `os.remove` was not called on). -/
def dedupSurvivors (files : List Artifact) : List Artifact :=
  if files.length ≤ 1 then files
  else ((dedupLoop files []).flags.filter (·.2)).map (·.1)

/-- Number of `get_image_hash` invocations a run performs. -/
def dedupHashCalls (files : List Artifact) : ℕ :=
  if files.length ≤ 1 then 0
  else (dedupLoop files []).hashCalls

/-- The key set of the `hashes` dict after processing a list of artifacts,
starting from key set `seen`. -/
def seenAfter : List Artifact → List Fp → List Fp
  | [], seen => seen
  | a :: rest, seen =>
    match get_image_hash a with
    | none => seenAfter rest seen
    | some fp =>
      if fp ∈ seen then seenAfter rest seen
      else seenAfter rest (fp :: seen)

/-- Shorthand: the fingerprints present in a list of artifacts. -/
def fpsOf (files : List Artifact) : List Fp :=
  files.filterMap Artifact.fingerprint

/- ### Structural lemmas about the deduplication loop -/

theorem dedupLoop_flags_fst (files : List Artifact) :
    ∀ seen, (dedupLoop files seen).flags.map (·.1) = files := by
  induction files with
  | nil => intro seen; rfl
  | cons a rest ih =>
    intro seen
    cases h : get_image_hash a with
    | none => simp [dedupLoop, h, ih]
    | some fp =>
      by_cases hmem : fp ∈ seen <;> simp [dedupLoop, h, hmem, ih]

theorem dedupLoop_flags_length (files : List Artifact) (seen : List Fp) :
    (dedupLoop files seen).flags.length = files.length := by
  have := dedupLoop_flags_fst files seen
  calc (dedupLoop files seen).flags.length
      = ((dedupLoop files seen).flags.map (·.1)).length := by simp
    _ = files.length := by rw [this]

theorem dedupLoop_append (xs ys : List Artifact) :
    ∀ seen, dedupLoop (xs ++ ys) seen =
      ⟨(dedupLoop xs seen).flags ++ (dedupLoop ys (seenAfter xs seen)).flags,
       (dedupLoop xs seen).removed + (dedupLoop ys (seenAfter xs seen)).removed,
       (dedupLoop xs seen).hashCalls + (dedupLoop ys (seenAfter xs seen)).hashCalls⟩ := by
  induction xs with
  | nil => intro seen; simp [dedupLoop, seenAfter]
  | cons a rest ih =>
    intro seen
    cases h : get_image_hash a with
    | none =>
      simp [dedupLoop, seenAfter, h, ih]
      omega
    | some fp =>
      by_cases hmem : fp ∈ seen
      · simp [dedupLoop, seenAfter, h, hmem, ih]
        omega
      · simp [dedupLoop, seenAfter, h, hmem, ih]
        omega

theorem mem_seenAfter (x : Fp) (files : List Artifact) :
    ∀ seen, x ∈ seenAfter files seen ↔ x ∈ seen ∨ x ∈ fpsOf files := by
  induction files with
  | nil => intro seen; simp [seenAfter, fpsOf]
  | cons a rest ih =>
    intro seen
    cases h : get_image_hash a with
    | none =>
      have ha : a.fingerprint = none := h
      simp [seenAfter, h, ih, fpsOf, ha]
    | some fp =>
      have ha : a.fingerprint = some fp := h
      have hfps : fpsOf (a :: rest) = fp :: fpsOf rest := by simp [fpsOf, ha]
      by_cases hmem : fp ∈ seen
      · have hl : seenAfter (a :: rest) seen = seenAfter rest seen := by
          simp [seenAfter, h, hmem]
        rw [hl, ih seen, hfps]
        constructor
        · rintro (hx | hx)
          · exact Or.inl hx
          · exact Or.inr (List.mem_cons_of_mem _ hx)
        · rintro (hx | hx)
          · exact Or.inl hx
          · rcases List.mem_cons.mp hx with rfl | hx
            · exact Or.inl hmem
            · exact Or.inr hx
      · have hl : seenAfter (a :: rest) seen = seenAfter rest (fp :: seen) := by
          simp [seenAfter, h, hmem]
        rw [hl, ih (fp :: seen), hfps]
        simp only [List.mem_cons]
        tauto

theorem dedupLoop_survivor_count (files : List Artifact) :
    ∀ seen, ((dedupLoop files seen).flags.filter (·.2)).length
      + (dedupLoop files seen).removed = files.length := by
  induction files with
  | nil => intro seen; simp [dedupLoop]
  | cons a rest ih =>
    intro seen
    cases h : get_image_hash a with
    | none =>
      simp [dedupLoop, h, List.filter]
      have := ih seen
      omega
    | some fp =>
      by_cases hmem : fp ∈ seen
      · simp [dedupLoop, h, hmem, List.filter]
        have := ih seen
        omega
      · simp [dedupLoop, h, hmem, List.filter]
        have := ih (fp :: seen)
        omega

theorem dedupLoop_survivors_sublist (files : List Artifact) (seen : List Fp) :
    List.Sublist (((dedupLoop files seen).flags.filter (·.2)).map (·.1)) files := by
  have h1 : List.Sublist ((dedupLoop files seen).flags.filter (·.2))
      (dedupLoop files seen).flags :=
    List.filter_sublist _
  have h2 := h1.map (·.1)
  rwa [dedupLoop_flags_fst files seen] at h2

theorem dedupLoop_survivors_fps_disjoint (files : List Artifact) :
    ∀ seen, (fpsOf (((dedupLoop files seen).flags.filter (·.2)).map (·.1))).Nodup ∧
      ∀ x ∈ fpsOf (((dedupLoop files seen).flags.filter (·.2)).map (·.1)), x ∉ seen := by
  induction files with
  | nil => intro seen; simp [dedupLoop, fpsOf]
  | cons a rest ih =>
    intro seen
    cases h : get_image_hash a with
    | none =>
      have ha : a.fingerprint = none := h
      have := ih seen
      simpa [dedupLoop, h, fpsOf, ha] using this
    | some fp =>
      have ha : a.fingerprint = some fp := h
      by_cases hmem : fp ∈ seen
      · have := ih seen
        simpa [dedupLoop, h, hmem] using this
      · have hrec := ih (fp :: seen)
        simp only [dedupLoop, h, hmem, if_neg, not_false_iff, List.filter_cons_of_pos,
          List.map_cons, fpsOf, List.filterMap_cons, ha, List.nodup_cons, List.mem_cons]
        refine ⟨⟨?_, hrec.1⟩, ?_⟩
        · intro hcon
          exact (hrec.2 fp hcon) (List.mem_cons_self fp seen)
        · intro x hx
          rcases hx with rfl | hx
          · exact hmem
          · intro hxs
            exact (hrec.2 x hx) (List.mem_cons_of_mem _ hxs)

theorem dedupLoop_nodup_noop (files : List Artifact) :
    ∀ seen, (fpsOf files).Nodup → (∀ x ∈ fpsOf files, x ∉ seen) →
      (dedupLoop files seen).removed = 0 ∧
      ((dedupLoop files seen).flags.filter (·.2)).map (·.1) = files := by
  induction files with
  | nil => intro seen _ _; simp [dedupLoop]
  | cons a rest ih =>
    intro seen hnd hdis
    cases h : get_image_hash a with
    | none =>
      have ha : a.fingerprint = none := h
      have hnd' : (fpsOf rest).Nodup := by simpa [fpsOf, ha] using hnd
      have hdis' : ∀ x ∈ fpsOf rest, x ∉ seen := by
        intro x hx; exact hdis x (by simpa [fpsOf, ha] using hx)
      have := ih seen hnd' hdis'
      simp [dedupLoop, h, this.1, this.2]
    | some fp =>
      have ha : a.fingerprint = some fp := h
      have hfpmem : fp ∈ fpsOf (a :: rest) := by simp [fpsOf, ha]
      have hmem : fp ∉ seen := hdis fp hfpmem
      have hnd' : (fpsOf rest).Nodup := by
        have : fpsOf (a :: rest) = fp :: fpsOf rest := by simp [fpsOf, ha]
        rw [this] at hnd; exact hnd.of_cons
      have hfpnot : fp ∉ fpsOf rest := by
        have : fpsOf (a :: rest) = fp :: fpsOf rest := by simp [fpsOf, ha]
        rw [this] at hnd; exact (List.nodup_cons.mp hnd).1
      have hdis' : ∀ x ∈ fpsOf rest, x ∉ fp :: seen := by
        intro x hx
        intro hcon
        rcases List.mem_cons.mp hcon with rfl | hxs
        · exact hfpnot hx
        · have hxcons : x ∈ fpsOf (a :: rest) := by
            have h2 : fpsOf (a :: rest) = fp :: fpsOf rest := by simp [fpsOf, ha]
            rw [h2]; exact List.mem_cons_of_mem _ hx
          exact hdis x hxcons hxs
      have := ih (fp :: seen) hnd' hdis'
      simp [dedupLoop, h, hmem, this.1, this.2]

/-- **C1** — Deduplication keeps exactly the first artifact with each
fingerprint and removes every later artifact with an equal fingerprint.
The survivor sequence is a subsequence of the input in input order.  The
kept/removed decision for the artifact at position `pre.length` is `true`
exactly when its fingerprint does not occur among the earlier artifacts;
in particular for two artifacts with equal fingerprints the first survives
and exactly the second is removed (removed count 1). -/
theorem dedup_first_occurrence_policy (files : List Artifact) :
    List.Sublist (dedupSurvivors files) files ∧
    (∀ (pre : List Artifact) (a : Artifact) (post : List Artifact) (h : Fp),
      files = pre ++ a :: post → a.fingerprint = some h →
      (dedupKeptFlags files).get? pre.length = some (decide (h ∉ fpsOf pre))) ∧
    (∀ (a b : Artifact) (h : Fp), a.fingerprint = some h → b.fingerprint = some h →
      dedupSurvivors [a, b] = [a] ∧ remove_duplicate_screenshots [a, b] = 1) := by
  refine ⟨?_, ?_, ?_⟩
  · by_cases hlen : files.length ≤ 1
    · simp [dedupSurvivors, hlen]
    · simpa [dedupSurvivors, hlen] using dedupLoop_survivors_sublist files []
  · intro pre a post h hf ha
    by_cases hlen : files.length ≤ 1
    · have hpre : pre = [] ∧ post = [] := by
        subst hf
        simp only [List.length_append, List.length_cons] at hlen
        constructor
        · exact List.eq_nil_of_length_eq_zero (by omega)
        · exact List.eq_nil_of_length_eq_zero (by omega)
      obtain ⟨hp, hq⟩ := hpre
      subst hp; subst hq; subst hf
      simp [dedupKeptFlags, fpsOf]
    · subst hf
      rw [dedupKeptFlags, if_neg hlen, dedupLoop_append]
      simp only [List.map_append]
      have hlenpre : ((dedupLoop pre []).flags.map (·.2)).length = pre.length := by
        simp [dedupLoop_flags_length]
      rw [List.get?_append_right (by omega)]
      have : pre.length - ((dedupLoop pre []).flags.map (·.2)).length = 0 := by omega
      rw [this]
      have hseen : (h ∈ seenAfter pre []) ↔ h ∈ fpsOf pre := by
        rw [mem_seenAfter]; simp
      by_cases hmem : h ∈ seenAfter pre []
      · have : h ∈ fpsOf pre := hseen.mp hmem
        simp [dedupLoop, get_image_hash, ha, hmem, this]
      · have : h ∉ fpsOf pre := fun hc => hmem (hseen.mpr hc)
        simp [dedupLoop, get_image_hash, ha, hmem, this]
  · intro a b h ha hb
    constructor
    · simp [dedupSurvivors, dedupLoop, get_image_hash, ha, hb]
    · simp [remove_duplicate_screenshots, dedupLoop, get_image_hash, ha, hb]

/-- Witness for C1: two artifacts with the byte-identical content
(fingerprint 5) at paths a/b; the flag at position 1 is `false` (removed)
and only the first survives. -/
theorem dedup_first_occurrence_policy_witness :
    dedupSurvivors [⟨"a", some 5⟩, ⟨"b", some 5⟩] = [⟨"a", some 5⟩] ∧
    remove_duplicate_screenshots [⟨"a", some 5⟩, ⟨"b", some 5⟩] = 1 ∧
    (dedupKeptFlags [⟨"a", some 5⟩, ⟨"b", some 5⟩]).get? 1 =
      some (decide ((5 : Fp) ∉ fpsOf [⟨"a", some 5⟩])) := by
  have hmain := dedup_first_occurrence_policy [⟨"a", some 5⟩, ⟨"b", some 5⟩]
  refine ⟨(hmain.2.2 ⟨"a", some 5⟩ ⟨"b", some 5⟩ 5 rfl rfl).1,
          (hmain.2.2 ⟨"a", some 5⟩ ⟨"b", some 5⟩ 5 rfl rfl).2, ?_⟩
  exact hmain.2.1 [⟨"a", some 5⟩] ⟨"b", some 5⟩ [] 5 rfl rfl

/-- **C5** — For every input sequence, the number of surviving artifacts
plus the removed count returned by `remove_duplicate_screenshots` equals
the length of the input sequence. -/
theorem dedup_count_conservation (files : List Artifact) :
    (dedupSurvivors files).length + remove_duplicate_screenshots files = files.length := by
  by_cases hlen : files.length ≤ 1
  · simp [dedupSurvivors, remove_duplicate_screenshots, hlen]
  · simp only [dedupSurvivors, remove_duplicate_screenshots, if_neg hlen, List.length_map]
    exact dedupLoop_survivor_count files []

/-- **C6** — When the fingerprint computation for one artifact fails
(`get_image_hash` returns `None`), the pass does not abort: the artifact
is kept as a survivor (its kept-flag is `true`, it is never deleted) and
every artifact of the input is still processed (one decision per input
artifact). -/
theorem dedup_unreadable_artifact_kept (files : List Artifact)
    (pre : List Artifact) (a : Artifact) (post : List Artifact)
    (hf : files = pre ++ a :: post) (ha : a.fingerprint = none) :
    a ∈ dedupSurvivors files ∧
    (dedupKeptFlags files).get? pre.length = some true ∧
    (dedupKeptFlags files).length = files.length := by
  refine ⟨?_, ?_, ?_⟩
  · by_cases hlen : files.length ≤ 1
    · rw [dedupSurvivors, if_pos hlen, hf]
      exact List.mem_append_right pre (List.mem_cons_self a post)
    · rw [dedupSurvivors, if_neg hlen, hf, dedupLoop_append]
      have hhead : dedupLoop (a :: post) (seenAfter pre []) =
          ⟨(a, true) :: (dedupLoop post (seenAfter pre [])).flags,
           (dedupLoop post (seenAfter pre [])).removed,
           (dedupLoop post (seenAfter pre [])).hashCalls + 1⟩ := by
        simp [dedupLoop, get_image_hash, ha]
      rw [hhead]
      simp only [List.filter_append, List.map_append]
      refine List.mem_append_right _ ?_
      have : (a, true) ∈ ((a, true) :: (dedupLoop post (seenAfter pre [])).flags).filter (·.2) := by
        rw [List.filter_cons_of_pos (by simp)]
        exact List.mem_cons_self _ _
      exact List.mem_map.mpr ⟨(a, true), this, rfl⟩
  · by_cases hlen : files.length ≤ 1
    · have hpre : pre = [] ∧ post = [] := by
        rw [hf] at hlen
        simp only [List.length_append, List.length_cons] at hlen
        exact ⟨List.eq_nil_of_length_eq_zero (by omega),
               List.eq_nil_of_length_eq_zero (by omega)⟩
      obtain ⟨hp, hq⟩ := hpre
      subst hp; subst hq; subst hf
      simp [dedupKeptFlags]
    · subst hf
      rw [dedupKeptFlags, if_neg hlen, dedupLoop_append]
      simp only [List.map_append]
      have hlenpre : ((dedupLoop pre []).flags.map (·.2)).length = pre.length := by
        simp [dedupLoop_flags_length]
      rw [List.get?_append_right (by omega)]
      have h0 : pre.length - ((dedupLoop pre []).flags.map (·.2)).length = 0 := by omega
      rw [h0]
      simp [dedupLoop, get_image_hash, ha]
  · by_cases hlen : files.length ≤ 1
    · simp [dedupKeptFlags, hlen]
    · simp [dedupKeptFlags, hlen, dedupLoop_flags_length]

/-- Witness for C6: the unreadable artifact `x` (no fingerprint) survives
a pass over `[x, y]` and both artifacts are processed. -/
theorem dedup_unreadable_artifact_kept_witness :
    Artifact.mk "x" none ∈ dedupSurvivors [⟨"x", none⟩, ⟨"y", some 1⟩] ∧
    (dedupKeptFlags [⟨"x", none⟩, ⟨"y", some 1⟩]).get? 0 = some true ∧
    (dedupKeptFlags [⟨"x", none⟩, ⟨"y", some 1⟩]).length =
      ([⟨"x", none⟩, ⟨"y", some 1⟩] : List Artifact).length :=
  dedup_unreadable_artifact_kept [⟨"x", none⟩, ⟨"y", some 1⟩]
    [] ⟨"x", none⟩ [⟨"y", some 1⟩] rfl rfl

/-- **C7** — Deduplication is idempotent: a second run on the survivor
sequence of a first run removes nothing; and an input of fewer than two
artifacts returns removed count 0 without a single `get_image_hash`
invocation (the fast path). -/
theorem dedup_idempotent_and_fast_path (files : List Artifact) :
    remove_duplicate_screenshots (dedupSurvivors files) = 0 ∧
    (files.length < 2 → remove_duplicate_screenshots files = 0 ∧
      dedupHashCalls files = 0) := by
  constructor
  · by_cases hlen : files.length ≤ 1
    · rw [dedupSurvivors, if_pos hlen, remove_duplicate_screenshots, if_pos hlen]
    · rw [dedupSurvivors, if_neg hlen]
      by_cases hslen : (((dedupLoop files []).flags.filter (·.2)).map (·.1)).length ≤ 1
      · rw [remove_duplicate_screenshots, if_pos hslen]
      · rw [remove_duplicate_screenshots, if_neg hslen]
        have hdisj := dedupLoop_survivors_fps_disjoint files []
        exact (dedupLoop_nodup_noop _ [] hdisj.1 (fun x _ => List.not_mem_nil x)).1
  · intro hlt
    have hlen : files.length ≤ 1 := by omega
    rw [remove_duplicate_screenshots, if_pos hlen, dedupHashCalls, if_pos hlen]
    exact ⟨rfl, rfl⟩

/-- Witness for C7: a first run on a two-duplicate input removes one file;
rerunning on the survivors removes nothing, and the singleton input takes
the no-hashing fast path. -/
theorem dedup_idempotent_and_fast_path_witness :
    remove_duplicate_screenshots
      (dedupSurvivors [⟨"a", some 5⟩, ⟨"b", some 5⟩]) = 0 ∧
    (([⟨"a", some 5⟩] : List Artifact).length < 2 ∧
      remove_duplicate_screenshots [⟨"a", some 5⟩] = 0 ∧
      dedupHashCalls [⟨"a", some 5⟩] = 0) := by
  refine ⟨(dedup_idempotent_and_fast_path [⟨"a", some 5⟩, ⟨"b", some 5⟩]).1, ?_, ?_, ?_⟩
  · decide
  · exact ((dedup_idempotent_and_fast_path [⟨"a", some 5⟩]).2 (by decide)).1
  · exact ((dedup_idempotent_and_fast_path [⟨"a", some 5⟩]).2 (by decide)).2

/- ### Screenshot filenames (lines 164-178)

`time_str = f"{int(current_time):04d}s"` renders the integer timestamp in
decimal, left-padded with zeros to a minimum width of 4, and the output
file is `f"{title_prefix}_{time_str}.png"` (`.jpg` for standard quality).
The decimal rendering is embedded with an explicit fuelled digit
extraction (the fuel `n` always suffices for the value `n`). -/

/-- The decimal digit character for `d < 10` (codepoint 48 + d). -/
def digitCharOf (d : ℕ) : Char := Char.ofNat (48 + d)

/-- Little-endian decimal digits of `n`, with explicit fuel. -/
def decDigitsAux : ℕ → ℕ → List ℕ
  | 0, _ => []
  | _ + 1, 0 => []
  | fuel + 1, n + 1 => (n + 1) % 10 :: decDigitsAux fuel ((n + 1) / 10)

/-- The decimal rendering of a natural number, most significant digit
first (what Python's `"%d"` produces). -/
def decRepr (n : ℕ) : List Char :=
  if n = 0 then ['0']
  else ((decDigitsAux n n).map digitCharOf).reverse

/-- Python's `f"{n:04d}"`: the decimal rendering left-padded with `'0'`
to a minimum width of 4. -/
def pad4 (n : ℕ) : List Char :=
  List.replicate (4 - (decRepr n).length) '0' ++ decRepr n

/-- The output filename for the frame at timestamp `t` (seconds):
`{title_prefix}_{t:04d}s.png` in highest quality, `.jpg` otherwise. -/
def screenshotFilename (pfx : String) (t : ℕ) (hq : Bool) : String :=
  pfx ++ "_" ++ String.mk (pad4 t) ++ "s" ++ (if hq then ".png" else ".jpg")

/-- Little-endian decimal value of a digit list. -/
def lvalDigits : List ℕ → ℕ
  | [] => 0
  | d :: tl => d + 10 * lvalDigits tl

/-- Big-endian value of a digit-character list (Horner evaluation). -/
def digitsVal (l : List Char) : ℕ :=
  l.foldl (fun a c => 10 * a + (c.toNat - 48)) 0

theorem decDigitsAux_lval : ∀ fuel n, n ≤ fuel →
    lvalDigits (decDigitsAux fuel n) = n := by
  intro fuel
  induction fuel with
  | zero => intro n hn; interval_cases n; rfl
  | succ fuel ih =>
    intro n hn
    match n with
    | 0 => rfl
    | m + 1 =>
      have hdiv : (m + 1) / 10 ≤ fuel := by omega
      simp only [decDigitsAux, lvalDigits, ih _ hdiv]
      omega

theorem decDigitsAux_digit_lt : ∀ fuel n d, d ∈ decDigitsAux fuel n → d < 10 := by
  intro fuel
  induction fuel with
  | zero => intro n d hd; simp [decDigitsAux] at hd
  | succ fuel ih =>
    intro n d hd
    match n with
    | 0 => simp [decDigitsAux] at hd
    | m + 1 =>
      simp only [decDigitsAux, List.mem_cons] at hd
      rcases hd with rfl | hd
      · omega
      · exact ih _ _ hd

theorem decDigitsAux_length : ∀ fuel k n, n ≤ fuel → n < 10 ^ k →
    (decDigitsAux fuel n).length ≤ k := by
  intro fuel
  induction fuel with
  | zero => intro k n hn _; interval_cases n; simp [decDigitsAux]
  | succ fuel ih =>
    intro k n hn hk
    match n with
    | 0 => simp [decDigitsAux]
    | m + 1 =>
      match k with
      | 0 => simp at hk
      | j + 1 =>
        have hdiv1 : (m + 1) / 10 ≤ fuel := by omega
        have hdiv2 : (m + 1) / 10 < 10 ^ j := by
          rw [Nat.div_lt_iff_lt_mul (by omega)]
          calc m + 1 < 10 ^ (j + 1) := hk
            _ = 10 ^ j * 10 := by rw [pow_succ]
        simpa [decDigitsAux] using ih (j) _ hdiv1 hdiv2

theorem digitCharOf_toNat {d : ℕ} (hd : d ≤ 9) : (digitCharOf d).toNat = 48 + d := by
  interval_cases d <;> decide

theorem char_lt_iff_toNat {a b : Char} : a < b ↔ a.toNat < b.toNat := by
  rw [Char.lt_iff_val_lt_val, UInt32.lt_def, BitVec.lt_def]
  exact Iff.rfl

theorem char_eq_of_toNat_eq {a b : Char} (h : a.toNat = b.toNat) : a = b :=
  Char.ext (UInt32.toNat.inj h)

theorem foldl_digit_shift (l : List Char) :
    ∀ a : ℕ, l.foldl (fun a c => 10 * a + (c.toNat - 48)) a
      = a * 10 ^ l.length + digitsVal l := by
  induction l with
  | nil => intro a; simp [digitsVal]
  | cons c tl ih =>
    intro a
    rw [List.foldl_cons, ih]
    have h0 : digitsVal (c :: tl) = (c.toNat - 48) * 10 ^ tl.length + digitsVal tl := by
      show List.foldl _ 0 (c :: tl) = _
      rw [List.foldl_cons, ih]
      simp
    rw [h0, List.length_cons]
    ring

theorem digitsVal_cons (c : Char) (l : List Char) :
    digitsVal (c :: l) = (c.toNat - 48) * 10 ^ l.length + digitsVal l := by
  show List.foldl _ 0 (c :: l) = _
  rw [List.foldl_cons, foldl_digit_shift]
  simp

theorem digitsVal_lt_pow (l : List Char) (hd : ∀ c ∈ l, c.toNat ≤ 57) :
    digitsVal l < 10 ^ l.length := by
  induction l with
  | nil => simp [digitsVal]
  | cons c tl ih =>
    rw [digitsVal_cons, List.length_cons]
    have he : c.toNat - 48 ≤ 9 := by
      have := hd c (List.mem_cons_self c tl)
      omega
    have hv : digitsVal tl < 10 ^ tl.length :=
      ih (fun x hx => hd x (List.mem_cons_of_mem c hx))
    calc (c.toNat - 48) * 10 ^ tl.length + digitsVal tl
        < (c.toNat - 48) * 10 ^ tl.length + 10 ^ tl.length := by omega
      _ = (c.toNat - 48 + 1) * 10 ^ tl.length := by ring
      _ ≤ 10 * 10 ^ tl.length := Nat.mul_le_mul_right _ (by omega)
      _ = 10 ^ (tl.length + 1) := by rw [pow_succ]; ring

theorem digitsVal_map_reverse (ds : List ℕ) (hd : ∀ d ∈ ds, d < 10) :
    digitsVal ((ds.map digitCharOf).reverse) = lvalDigits ds := by
  induction ds with
  | nil => simp [digitsVal, lvalDigits]
  | cons d tl ih =>
    have hd9 : d ≤ 9 := by have := hd d (List.mem_cons_self d tl); omega
    have htl : ∀ x ∈ tl, x < 10 := fun x hx => hd x (List.mem_cons_of_mem d hx)
    simp only [List.map_cons, List.reverse_cons]
    show List.foldl _ 0 _ = _
    rw [List.foldl_append]
    have : List.foldl (fun a c => 10 * a + (c.toNat - 48)) 0 (tl.map digitCharOf).reverse
        = lvalDigits tl := ih htl
    rw [this]
    simp only [List.foldl_cons, List.foldl_nil, lvalDigits]
    rw [digitCharOf_toNat hd9]
    omega

theorem decRepr_digits (n : ℕ) : ∀ c ∈ decRepr n, 48 ≤ c.toNat ∧ c.toNat ≤ 57 := by
  intro c hc
  by_cases h0 : n = 0
  · subst h0
    simp only [decRepr, if_pos] at hc
    rcases List.mem_singleton.mp hc with rfl
    decide
  · simp only [decRepr, if_neg h0, List.mem_reverse, List.mem_map] at hc
    obtain ⟨d, hd, rfl⟩ := hc
    have h10 : d < 10 := decDigitsAux_digit_lt n n d hd
    rw [digitCharOf_toNat (by omega)]
    omega

theorem decRepr_val (n : ℕ) : digitsVal (decRepr n) = n := by
  by_cases h0 : n = 0
  · subst h0; decide
  · rw [decRepr, if_neg h0,
      digitsVal_map_reverse _ (fun d hd => decDigitsAux_digit_lt n n d hd),
      decDigitsAux_lval n n (le_refl n)]

theorem decRepr_length_le {n : ℕ} (hn : n ≤ 9999) : (decRepr n).length ≤ 4 := by
  by_cases h0 : n = 0
  · subst h0; decide
  · rw [decRepr, if_neg h0]
    simpa using decDigitsAux_length n 4 n (le_refl n) (by norm_num; omega)

theorem pad4_length {n : ℕ} (hn : n ≤ 9999) : (pad4 n).length = 4 := by
  have := decRepr_length_le hn
  simp only [pad4, List.length_append, List.length_replicate]
  omega

theorem pad4_digits (n : ℕ) : ∀ c ∈ pad4 n, 48 ≤ c.toNat ∧ c.toNat ≤ 57 := by
  intro c hc
  rcases List.mem_append.mp hc with hc | hc
  · have := List.eq_of_mem_replicate hc
    subst this; decide
  · exact decRepr_digits n c hc

theorem digitsVal_replicate_zero_append (k : ℕ) (l : List Char) :
    digitsVal (List.replicate k '0' ++ l) = digitsVal l := by
  induction k with
  | zero => simp
  | succ k ih =>
    show List.foldl _ 0 _ = _
    rw [List.replicate_succ, List.cons_append, List.foldl_cons]
    have h48 : ('0' : Char).toNat - 48 = 0 := by decide
    rw [h48]
    exact ih

theorem pad4_val (n : ℕ) : digitsVal (pad4 n) = n := by
  rw [pad4, digitsVal_replicate_zero_append, decRepr_val]

/- ### Lexicographic comparison of filenames -/

theorem list_lt_append_left (p : List Char) {xs ys : List Char}
    (h : List.lt xs ys) : List.lt (p ++ xs) (p ++ ys) := by
  induction p with
  | nil => exact h
  | cons c p ih =>
    exact List.lt.tail (by simp) (by simp) ih

theorem list_lt_append_of_length_eq {xs ys : List Char} (z w : List Char)
    (h : List.lt xs ys) (hlen : xs.length = ys.length) :
    List.lt (xs ++ z) (ys ++ w) := by
  induction h with
  | nil b bs => simp at hlen
  | head as bs hab => exact List.lt.head _ _ hab
  | tail h1 h2 h3 ih =>
    simp only [List.length_cons, Nat.succ_inj] at hlen
    exact List.lt.tail h1 h2 (ih hlen)

theorem list_lt_of_digitsVal_lt : ∀ (xs ys : List Char),
    xs.length = ys.length →
    (∀ c ∈ xs, 48 ≤ c.toNat ∧ c.toNat ≤ 57) →
    (∀ c ∈ ys, 48 ≤ c.toNat ∧ c.toNat ≤ 57) →
    digitsVal xs < digitsVal ys → List.lt xs ys := by
  intro xs
  induction xs with
  | nil =>
    intro ys hlen _ _ hval
    cases ys with
    | nil => simp [digitsVal] at hval
    | cons y ys => simp at hlen
  | cons x xs ih =>
    intro ys hlen hdx hdy hval
    cases ys with
    | nil => simp at hlen
    | cons y ys =>
      have hlen' : xs.length = ys.length := by simpa using hlen
      have hx48 := (hdx x (List.mem_cons_self x xs)).1
      have hy48 := (hdy y (List.mem_cons_self y ys)).1
      have hxval : digitsVal (x :: xs) = (x.toNat - 48) * 10 ^ xs.length + digitsVal xs :=
        digitsVal_cons x xs
      have hyval : digitsVal (y :: ys) = (y.toNat - 48) * 10 ^ xs.length + digitsVal ys := by
        rw [digitsVal_cons, hlen']
      rcases lt_trichotomy x.toNat y.toNat with hlt | heq | hgt
      · exact List.lt.head _ _ (char_lt_iff_toNat.mpr hlt)
      · have hxy : x = y := char_eq_of_toNat_eq heq
        subst hxy
        refine List.lt.tail (by simp) (by simp) ?_
        refine ih ys hlen' (fun c hc => hdx c (List.mem_cons_of_mem x hc))
          (fun c hc => hdy c (List.mem_cons_of_mem x hc)) ?_
        rw [hxval, hyval] at hval
        omega
      · exfalso
        have hvy : digitsVal ys < 10 ^ xs.length := by
          rw [hlen']
          exact digitsVal_lt_pow ys (fun c hc => (hdy c (List.mem_cons_of_mem y hc)).2)
        have hcoef : (y.toNat - 48) + 1 ≤ x.toNat - 48 := by omega
        have : digitsVal (y :: ys) < digitsVal (x :: xs) := by
          rw [hxval, hyval]
          calc (y.toNat - 48) * 10 ^ xs.length + digitsVal ys
              < (y.toNat - 48) * 10 ^ xs.length + 10 ^ xs.length := by omega
            _ = (y.toNat - 48 + 1) * 10 ^ xs.length := by ring
            _ ≤ (x.toNat - 48) * 10 ^ xs.length := Nat.mul_le_mul_right _ hcoef
            _ ≤ (x.toNat - 48) * 10 ^ xs.length + digitsVal xs := Nat.le_add_right _ _
        omega

theorem pad4_lt_of_lt {t1 t2 : ℕ} (h12 : t1 < t2) (h2 : t2 ≤ 9999) :
    List.lt (pad4 t1) (pad4 t2) := by
  have h1 : t1 ≤ 9999 := by omega
  refine list_lt_of_digitsVal_lt (pad4 t1) (pad4 t2) ?_ (pad4_digits t1) (pad4_digits t2) ?_
  · rw [pad4_length h1, pad4_length h2]
  · rw [pad4_val, pad4_val]; exact h12

/- ### Frame extraction: `extract_high_quality_screenshots` (lines 141-196)

The whole Python function body sits inside a single `try/except` whose
handler returns `(0, [])`.  The `while current_time <= duration` loop
(line 163) is modelled step by step; each iteration computes the output
filename, runs ffmpeg (`check=True`, so a failure raises), increments the
counters, and evaluates `progress = current_time / duration` — which
raises `ZeroDivisionError` when the ffprobe duration is `0.0`.
Timestamps reaching the filename are non-negative in every run settled
here, so the `04d` rendering is taken on `Int.toNat`. -/

/-- Mutable state of the extraction loop: the loop counter, the two
accumulators of the source, plus two observables — every timestamp at
which ffmpeg was invoked, and every file ffmpeg wrote to disk (files
persist even when a later exception aborts the function). -/
structure ExtractState where
  currentTime : ℤ
  screenshotsTaken : ℕ
  screenshotFiles : List String
  capturesAttempted : List ℤ
  writtenFiles : List String
deriving DecidableEq, Repr

/-- The state on entry to the loop (lines 159-161). -/
def initExtractState : ExtractState :=
  { currentTime := 0, screenshotsTaken := 0, screenshotFiles := [],
    capturesAttempted := [], writtenFiles := [] }

/-- How a run of the while-loop ends: normally (guard became false), by an
exception propagating to the function-level handler, or not within the
given fuel (the Python loop just keeps running in that case: this outcome
marks a diverging run, it does not exist in the source). -/
inductive LoopOutcome
  | finished
  | errored
  | outOfFuel
deriving DecidableEq, Repr

/-- One-to-one translation of the `while current_time <= duration` loop:
guard, filename, ffmpeg invocation (`capOk` says whether it succeeds; on
failure `subprocess.run(..., check=True)` raises), counter and list
updates, the `progress` division (raises iff `duration = 0`), and the
`current_time += interval` step. -/
def extractLoop (capOk : ℤ → Bool) (D : ℚ) (I : ℤ) (pfx : String) (hq : Bool) :
    ℕ → ExtractState → LoopOutcome × ExtractState
  | 0, s => (.outOfFuel, s)
  | fuel + 1, s =>
    if (s.currentTime : ℚ) ≤ D then
      let file := screenshotFilename pfx s.currentTime.toNat hq
      let s1 := { s with capturesAttempted := s.capturesAttempted ++ [s.currentTime] }
      if capOk s.currentTime then
        let s2 := { s1 with screenshotsTaken := s1.screenshotsTaken + 1,
                            screenshotFiles := s1.screenshotFiles ++ [file],
                            writtenFiles := s1.writtenFiles ++ [file] }
        if D = 0 then (.errored, s2)
        else extractLoop capOk D I pfx hq fuel { s2 with currentTime := s2.currentTime + I }
      else (.errored, s1)
    else (.finished, s)

/-- `extract_high_quality_screenshots`: the pair the function returns —
`(screenshots_taken, screenshot_files)` on normal loop exit, `(0, [])`
when an exception reached the handler on line 194 — together with the
final observable state. -/
def extract_high_quality_screenshots (capOk : ℤ → Bool) (D : ℚ) (I : ℤ)
    (pfx : String) (hq : Bool) (fuel : ℕ) : (ℕ × List String) × ExtractState :=
  match extractLoop capOk D I pfx hq fuel initExtractState with
  | (.finished, s) => ((s.screenshotsTaken, s.screenshotFiles), s)
  | (.errored, s) => ((0, []), s)
  | (.outOfFuel, s) => ((0, []), s)

/- ### The time grid

The timestamps the loop visits are `0, I, 2I, …`; for `0 < I` the visit
sequence is finite and `gridLoop` reproduces it directly (the `0 < I`
conjunct in the guard only encodes termination of the translation — the
source loop has the guard `current_time <= duration` alone, and its
behaviour for `interval ≤ 0` is settled separately on `extractLoop`,
which does not terminate then). -/
def gridLoop (D : ℚ) (I : ℤ) (t : ℤ) : List ℤ :=
  if h : 0 < I ∧ (t : ℚ) ≤ D then
    t :: gridLoop D I (t + I)
  else []
termination_by (⌊D⌋ + 1 - t).toNat
decreasing_by
  have h1 : t ≤ ⌊D⌋ := Int.le_floor.mpr h.2
  have h2 : 0 < I := h.1
  omega

theorem gridLoop_eq_map_range (D : ℚ) (I : ℤ) (hI : 0 < I) :
    ∀ (m : ℕ) (t : ℤ), (t : ℚ) ≤ D → ⌊(D - t) / (I : ℚ)⌋.toNat = m →
      gridLoop D I t = (List.range (m + 1)).map (fun n : ℕ => t + (n : ℤ) * I) := by
  have hIQ : (0 : ℚ) < (I : ℚ) := by exact_mod_cast hI
  intro m
  induction m with
  | zero =>
    intro t ht hm
    have hnn : 0 ≤ (D - t) / (I : ℚ) := div_nonneg (by linarith) (le_of_lt hIQ)
    have hfl0 : ⌊(D - t) / (I : ℚ)⌋ = 0 := by
      have h0 : 0 ≤ ⌊(D - t) / (I : ℚ)⌋ := Int.floor_nonneg.mpr hnn
      omega
    have hlt1 : (D - t) / (I : ℚ) < 1 := by
      have := Int.lt_floor_add_one ((D - t) / (I : ℚ))
      rw [hfl0] at this
      simpa using this
    have hDt : D - t < I := by
      rw [div_lt_one hIQ] at hlt1
      linarith
    rw [gridLoop, dif_pos ⟨hI, ht⟩, gridLoop, dif_neg]
    · rw [show List.range 1 = [0] from rfl]
      simp
    · rintro ⟨-, hc⟩
      push_cast at hc
      linarith
  | succ m ih =>
    intro t ht hm
    have hnn : 0 ≤ (D - t) / (I : ℚ) := div_nonneg (by linarith) (le_of_lt hIQ)
    have hfl : ⌊(D - t) / (I : ℚ)⌋ = (m : ℤ) + 1 := by
      have h0 : 0 ≤ ⌊(D - t) / (I : ℚ)⌋ := Int.floor_nonneg.mpr hnn
      omega
    have hone : (1 : ℚ) ≤ (D - t) / (I : ℚ) := by
      have : (1 : ℤ) ≤ ⌊(D - t) / (I : ℚ)⌋ := by omega
      exact_mod_cast (Int.le_floor.mp this)
    have hIle : (I : ℚ) ≤ D - t := (one_le_div hIQ).mp hone
    have ht' : ((t + I : ℤ) : ℚ) ≤ D := by push_cast; linarith
    have hnext : ⌊(D - (t + I : ℤ)) / (I : ℚ)⌋.toNat = m := by
      have hshift : (D - ((t + I : ℤ) : ℚ)) / (I : ℚ)
          = (D - t) / (I : ℚ) - 1 := by
        have hIne : (I : ℚ) ≠ 0 := ne_of_gt hIQ
        push_cast
        field_simp
        ring
      rw [hshift]
      have : ⌊(D - t) / (I : ℚ) - 1⌋ = ⌊(D - t) / (I : ℚ)⌋ - 1 := by
        exact_mod_cast Int.floor_sub_int ((D - t) / (I : ℚ)) 1
      rw [this, hfl]
      omega
    have hrec := ih (t + I) ht' hnext
    rw [gridLoop, dif_pos ⟨hI, ht⟩, hrec]
    conv_rhs => rw [List.range_succ_eq_map]
    rw [List.map_cons, List.map_map]
    congr 1
    · simp
    · apply List.map_congr_left
      intro n _
      simp only [Function.comp_apply]
      push_cast
      ring

theorem gridLoop_zero_eq (D : ℚ) (I : ℤ) (hI : 0 < I) (hD : 0 ≤ D) :
    gridLoop D I 0 = (List.range (⌊D / (I : ℚ)⌋.toNat + 1)).map (fun n : ℕ => (n : ℤ) * I) := by
  have h := gridLoop_eq_map_range D I hI ⌊D / (I : ℚ)⌋.toNat 0 (by push_cast; exact hD)
    (by norm_num)
  simpa using h

/-- **C4** — For duration `D ≥ 0` and interval `I > 0` the loop's sample
timestamps are exactly `0, I, 2I, …`: `⌊D/I⌋ + 1` of them, strictly
ascending, starting at 0, all `≤ D`; `D = 0` yields exactly `[0]`. -/
theorem time_grid_spec (D : ℚ) (I : ℤ) (hD : 0 ≤ D) (hI : 0 < I) :
    (gridLoop D I 0).length = ⌊D / (I : ℚ)⌋.toNat + 1 ∧
    gridLoop D I 0 = (List.range (⌊D / (I : ℚ)⌋.toNat + 1)).map (fun n : ℕ => (n : ℤ) * I) ∧
    List.Chain' (· < ·) (gridLoop D I 0) ∧
    (gridLoop D I 0).head? = some 0 ∧
    (∀ t ∈ gridLoop D I 0, (0 : ℤ) ≤ t ∧ (t : ℚ) ≤ D) ∧
    (D = 0 → gridLoop D I 0 = [0]) := by
  have hIQ : (0 : ℚ) < (I : ℚ) := by exact_mod_cast hI
  have heq := gridLoop_zero_eq D I hI hD
  have hflnn : 0 ≤ ⌊D / (I : ℚ)⌋ :=
    Int.floor_nonneg.mpr (div_nonneg hD (le_of_lt hIQ))
  refine ⟨?_, heq, ?_, ?_, ?_, ?_⟩
  · rw [heq]; simp
  · rw [heq]
    have hp : (List.range (⌊D / (I : ℚ)⌋.toNat + 1)).Pairwise
        (fun a b : ℕ => (a : ℤ) * I < (b : ℤ) * I) := by
      refine List.Pairwise.imp ?_ (List.pairwise_lt_range _)
      intro a b hab
      exact mul_lt_mul_of_pos_right (by exact_mod_cast hab) hI
    exact (List.pairwise_map.mpr hp).chain'
  · rw [heq]
    conv_lhs => rw [List.range_succ_eq_map]
    simp
  · intro t ht
    rw [heq] at ht
    obtain ⟨n, hn, rfl⟩ := List.mem_map.mp ht
    have hn' : n ≤ ⌊D / (I : ℚ)⌋.toNat := by
      have := List.mem_range.mp hn; omega
    refine ⟨mul_nonneg (Int.ofNat_nonneg n) (le_of_lt hI), ?_⟩
    have hnz : (n : ℤ) ≤ ⌊D / (I : ℚ)⌋ := by omega
    have hnq : ((n : ℤ) : ℚ) ≤ D / (I : ℚ) := Int.le_floor.mp hnz
    have := (le_div_iff hIQ).mp hnq
    push_cast
    push_cast at this
    linarith
  · intro h0
    subst h0
    rw [heq]
    norm_num
    rw [show List.range 1 = [0] from rfl]
    simp

/-- Witness for C4 at duration 10, interval 4 (the spec's own scenario:
timestamps `[0, 4, 8]`). -/
theorem time_grid_spec_witness :
    ((0 : ℚ) ≤ 10 ∧ (0 : ℤ) < 4) ∧
    ((gridLoop 10 4 0).length = ⌊(10 : ℚ) / ((4 : ℤ) : ℚ)⌋.toNat + 1 ∧
     gridLoop 10 4 0
       = (List.range (⌊(10 : ℚ) / ((4 : ℤ) : ℚ)⌋.toNat + 1)).map (fun n : ℕ => (n : ℤ) * 4) ∧
     List.Chain' (· < ·) (gridLoop 10 4 0) ∧
     (gridLoop 10 4 0).head? = some 0 ∧
     (∀ t ∈ gridLoop 10 4 0, (0 : ℤ) ≤ t ∧ (t : ℚ) ≤ 10) ∧
     ((10 : ℚ) = 0 → gridLoop 10 4 0 = [0])) :=
  ⟨⟨by norm_num, by norm_num⟩, time_grid_spec 10 4 (by norm_num) (by norm_num)⟩

theorem gridLoop_zero_mem_nonneg (D : ℚ) (I : ℤ) (hI : 0 < I) (hD : 0 ≤ D) :
    ∀ t ∈ gridLoop D I 0, 0 ≤ t := by
  intro t ht
  rw [gridLoop_zero_eq D I hI hD] at ht
  obtain ⟨n, _, rfl⟩ := List.mem_map.mp ht
  exact mul_nonneg (Int.ofNat_nonneg n) (le_of_lt hI)

theorem screenshotFilename_data (pfx : String) (t : ℕ) (hq : Bool) :
    (screenshotFilename pfx t hq).data
      = (pfx.data ++ ['_'])
        ++ (pad4 t ++ ('s' :: (if hq then (".png" : String) else ".jpg").data)) := by
  have h1 : ("_" : String).data = ['_'] := rfl
  have h2 : ("s" : String).data = ['s'] := rfl
  have h3 : (String.mk (pad4 t)).data = pad4 t := rfl
  simp only [screenshotFilename, String.data_append, h1, h2, h3]
  simp [List.append_assoc]

/-- **C8 (amended)** — For sample timestamps `t1 < t2` of one extraction
whose values do not exceed 9999 seconds, the filename for `t1` is
lexicographically smaller than the filename for `t2`.  (Beyond 9999 s the
`04d` zero-padding is exceeded and the order can break; see the
counterexample.) -/
theorem filename_order_spec (D : ℚ) (I : ℤ) (pfx : String) (hq : Bool)
    (t1 t2 : ℤ) (hD : 0 ≤ D) (hI : 0 < I)
    (h1 : t1 ∈ gridLoop D I 0) (h2 : t2 ∈ gridLoop D I 0)
    (h12 : t1 < t2) (hbound : t2 ≤ 9999) :
    screenshotFilename pfx t1.toNat hq < screenshotFilename pfx t2.toNat hq := by
  have hb1 := gridLoop_zero_mem_nonneg D I hI hD t1 h1
  have hb2 := gridLoop_zero_mem_nonneg D I hI hD t2 h2
  rw [String.lt_iff_toList_lt]
  show List.Lex (· < ·) (screenshotFilename pfx t1.toNat hq).data
    (screenshotFilename pfx t2.toNat hq).data
  rw [← List.lt_iff_lex_lt]
  show List.lt (screenshotFilename pfx t1.toNat hq).data
    (screenshotFilename pfx t2.toNat hq).data
  rw [screenshotFilename_data, screenshotFilename_data]
  apply list_lt_append_left
  refine list_lt_append_of_length_eq _ _ (pad4_lt_of_lt ?_ ?_) ?_
  · omega
  · omega
  · rw [pad4_length (by omega), pad4_length (by omega)]

/-- Witness for C8 (amended): timestamps 4 < 8 of the duration-10,
interval-4 grid give lexicographically ordered filenames. -/
theorem filename_order_spec_witness :
    ((0 : ℚ) ≤ 10 ∧ (0 : ℤ) < 4 ∧ (4 : ℤ) ∈ gridLoop 10 4 0 ∧
      (8 : ℤ) ∈ gridLoop 10 4 0 ∧ (4 : ℤ) < 8 ∧ (8 : ℤ) ≤ 9999) ∧
    screenshotFilename "video" (4 : ℤ).toNat true
      < screenshotFilename "video" (8 : ℤ).toNat true := by
  have hfl : ⌊(10 : ℚ) / ((4 : ℤ) : ℚ)⌋ = 2 := by norm_num
  have hmem4 : (4 : ℤ) ∈ gridLoop 10 4 0 := by
    rw [gridLoop_zero_eq 10 4 (by norm_num) (by norm_num)]
    refine List.mem_map.mpr ⟨1, List.mem_range.mpr ?_, by norm_num⟩
    rw [hfl]; decide
  have hmem8 : (8 : ℤ) ∈ gridLoop 10 4 0 := by
    rw [gridLoop_zero_eq 10 4 (by norm_num) (by norm_num)]
    refine List.mem_map.mpr ⟨2, List.mem_range.mpr ?_, by norm_num⟩
    rw [hfl]; decide
  exact ⟨⟨by norm_num, by norm_num, hmem4, hmem8, by norm_num, by norm_num⟩,
    filename_order_spec 10 4 "video" true 4 8 (by norm_num) (by norm_num)
      hmem4 hmem8 (by norm_num) (by norm_num)⟩

/-- Counterexample for C8 as stated: in an extraction of a video of
duration 10000 s at interval 4 s, the grid contains both 9996 and 10000;
the 4-digit zero padding overflows at 10000, and the filename for the
EARLIER timestamp 9996 is NOT lexicographically smaller (indeed
`video_9996s.png > video_10000s.png`). -/
theorem filename_order_counterexample :
    (9996 : ℤ) ∈ gridLoop 10000 4 0 ∧ (10000 : ℤ) ∈ gridLoop 10000 4 0 ∧
    (9996 : ℤ) < 10000 ∧
    ¬ (screenshotFilename "video" 9996 true
        < screenshotFilename "video" 10000 true) := by
  have hfl : ⌊(10000 : ℚ) / ((4 : ℤ) : ℚ)⌋ = 2500 := by norm_num
  refine ⟨?_, ?_, by norm_num, ?_⟩
  · rw [gridLoop_zero_eq 10000 4 (by norm_num) (by norm_num)]
    refine List.mem_map.mpr ⟨2499, List.mem_range.mpr ?_, by norm_num⟩
    rw [hfl]; decide
  · rw [gridLoop_zero_eq 10000 4 (by norm_num) (by norm_num)]
    refine List.mem_map.mpr ⟨2500, List.mem_range.mpr ?_, by norm_num⟩
    rw [hfl]; decide
  · have hp1 : pad4 10000 = ['1', '0', '0', '0', '0'] := by decide
    have hp2 : pad4 9996 = ['9', '9', '9', '6'] := by decide
    have hlt : List.lt (screenshotFilename "video" 10000 true).data
        (screenshotFilename "video" 9996 true).data := by
      rw [screenshotFilename_data, screenshotFilename_data, hp1, hp2]
      apply list_lt_append_left
      simp only [List.cons_append]
      exact List.lt.head _ _ (by decide)
    have hstr : screenshotFilename "video" 10000 true
        < screenshotFilename "video" 9996 true := by
      rw [String.lt_iff_toList_lt]
      show List.Lex (· < ·) (screenshotFilename "video" 10000 true).data
        (screenshotFilename "video" 9996 true).data
      rw [← List.lt_iff_lex_lt]
      exact hlt
    exact lt_asymm hstr

/- ### Behaviour of the extraction loop -/

theorem extractLoop_succ_step (capOk : ℤ → Bool) (D : ℚ) (I : ℤ) (pfx : String)
    (hq : Bool) (fuel : ℕ) (s : ExtractState)
    (hguard : (s.currentTime : ℚ) ≤ D) (hcap : capOk s.currentTime = true)
    (hD : ¬ D = 0) :
    extractLoop capOk D I pfx hq (fuel + 1) s
      = extractLoop capOk D I pfx hq fuel
          { currentTime := s.currentTime + I,
            screenshotsTaken := s.screenshotsTaken + 1,
            screenshotFiles := s.screenshotFiles
              ++ [screenshotFilename pfx s.currentTime.toNat hq],
            capturesAttempted := s.capturesAttempted ++ [s.currentTime],
            writtenFiles := s.writtenFiles
              ++ [screenshotFilename pfx s.currentTime.toNat hq] } := by
  simp [extractLoop, hguard, hcap, hD]

theorem extractLoop_capfail_step (capOk : ℤ → Bool) (D : ℚ) (I : ℤ) (pfx : String)
    (hq : Bool) (fuel : ℕ) (s : ExtractState)
    (hguard : (s.currentTime : ℚ) ≤ D) (hcap : capOk s.currentTime = false) :
    extractLoop capOk D I pfx hq (fuel + 1) s
      = (.errored, { s with capturesAttempted := s.capturesAttempted ++ [s.currentTime] }) := by
  simp [extractLoop, hguard, hcap]

theorem extractLoop_divzero_step (capOk : ℤ → Bool) (I : ℤ) (pfx : String)
    (hq : Bool) (fuel : ℕ) (s : ExtractState)
    (hguard : (s.currentTime : ℚ) ≤ 0) (hcap : capOk s.currentTime = true) :
    extractLoop capOk 0 I pfx hq (fuel + 1) s
      = (.errored,
         { currentTime := s.currentTime,
           screenshotsTaken := s.screenshotsTaken + 1,
           screenshotFiles := s.screenshotFiles
             ++ [screenshotFilename pfx s.currentTime.toNat hq],
           capturesAttempted := s.capturesAttempted ++ [s.currentTime],
           writtenFiles := s.writtenFiles
             ++ [screenshotFilename pfx s.currentTime.toNat hq] }) := by
  simp [extractLoop, hguard, hcap]

theorem extractLoop_errored_of_capFail (capOk : ℤ → Bool) (D : ℚ) (I : ℤ)
    (pfx : String) (hq : Bool) (hI : 0 < I) (k : ℕ)
    (hcap : capOk ((k : ℤ) * I) = false) (hk : (((k : ℤ) * I : ℤ) : ℚ) ≤ D) :
    ∀ (fuel : ℕ) (j : ℕ) (s : ExtractState), s.currentTime = (j : ℤ) * I → j ≤ k →
      k + 1 - j ≤ fuel →
      (extractLoop capOk D I pfx hq fuel s).1 = .errored := by
  intro fuel
  induction fuel with
  | zero => intro j s _ hj hf; omega
  | succ fuel ih =>
    intro j s hst hj hf
    have hguard : (s.currentTime : ℚ) ≤ D := by
      rw [hst]
      have hle : (j : ℤ) * I ≤ (k : ℤ) * I :=
        mul_le_mul_of_nonneg_right (by exact_mod_cast hj) (le_of_lt hI)
      calc (((j : ℤ) * I : ℤ) : ℚ) ≤ (((k : ℤ) * I : ℤ) : ℚ) := by exact_mod_cast hle
        _ ≤ D := hk
    by_cases hcap2 : capOk s.currentTime = true
    · have hjk : j ≠ k := by
        intro hjeq
        rw [hjeq] at hst
        rw [hst] at hcap2
        rw [hcap2] at hcap
        exact absurd hcap (by simp)
      by_cases hD0 : D = 0
      · subst hD0
        rw [extractLoop_divzero_step capOk I pfx hq fuel s hguard hcap2]
      · rw [extractLoop_succ_step capOk D I pfx hq fuel s hguard hcap2 hD0]
        refine ih (j + 1) _ ?_ (by omega) (by omega)
        show s.currentTime + I = ((j + 1 : ℕ) : ℤ) * I
        rw [hst]
        push_cast
        ring
    · have hcapf : capOk s.currentTime = false := by
        cases hx : capOk s.currentTime
        · rfl
        · exact absurd hx hcap2
      rw [extractLoop_capfail_step capOk D I pfx hq fuel s hguard hcapf]

/-- **C2 (amended)** — If the capture of any sampled timestamp fails, the
raised `CalledProcessError` propagates to the function-level handler: the
WHOLE extraction stops (the loop never finishes normally, whatever fuel it
is given beyond the failing iteration) and the function returns count 0
and an empty file list — failure is signalled to the orchestrator by the
zero count, not by skipping the timestamp and not by a
`NoFramesExtractedError`. -/
theorem capture_failure_aborts_extraction (capOk : ℤ → Bool) (D : ℚ) (I : ℤ)
    (pfx : String) (hq : Bool) (hI : 0 < I) (k : ℕ)
    (hcap : capOk ((k : ℤ) * I) = false) (hk : (((k : ℤ) * I : ℤ) : ℚ) ≤ D)
    (fuel : ℕ) (hfuel : k + 1 ≤ fuel) :
    (extractLoop capOk D I pfx hq fuel initExtractState).1 = .errored ∧
    (extract_high_quality_screenshots capOk D I pfx hq fuel).1 = (0, []) := by
  have h1 := extractLoop_errored_of_capFail capOk D I pfx hq hI k hcap hk fuel 0
    initExtractState (by simp [initExtractState]) (by omega) (by omega)
  refine ⟨h1, ?_⟩
  rw [extract_high_quality_screenshots]
  rcases hx : extractLoop capOk D I pfx hq fuel initExtractState with ⟨o, s⟩
  rw [hx] at h1
  simp only at h1
  subst h1
  rfl

/-- Witness for C2 (amended): duration 2 s, interval 1 s, the capture at
timestamp 1 fails — the run errors and the function reports `(0, [])`. -/
theorem capture_failure_aborts_extraction_witness :
    ((0 : ℤ) < 1 ∧ (fun t : ℤ => decide (t ≠ 1)) ((1 : ℕ) : ℤ) = false ∧
      ((((1 : ℕ) : ℤ) * 1 : ℤ) : ℚ) ≤ 2 ∧ 1 + 1 ≤ 10) ∧
    (extractLoop (fun t : ℤ => decide (t ≠ 1)) 2 1 "video" true 10
        initExtractState).1 = .errored ∧
    (extract_high_quality_screenshots (fun t : ℤ => decide (t ≠ 1)) 2 1 "video"
        true 10).1 = (0, []) := by
  refine ⟨⟨by norm_num, by decide, by norm_num, by norm_num⟩, ?_⟩
  have h := capture_failure_aborts_extraction (fun t : ℤ => decide (t ≠ 1)) 2 1
    "video" true (by norm_num) 1 (by decide) (by norm_num) 10 (by norm_num)
  exact h

/-- Counterexample for C2 as stated: with duration 2 s and interval 1 s,
the captures at timestamps 0 and 2 would succeed and only the one at 1
fails — yet the extraction produces zero frames (`(0, [])`), with the
already-written frame for timestamp 0 left on disk; with no failing
capture the same extraction produces 3 frames. -/
theorem capture_failure_counterexample :
    (fun t : ℤ => decide (t ≠ 1)) 0 = true ∧
    (fun t : ℤ => decide (t ≠ 1)) 1 = false ∧
    (fun t : ℤ => decide (t ≠ 1)) 2 = true ∧
    (extract_high_quality_screenshots (fun t : ℤ => decide (t ≠ 1)) 2 1 "video"
        true 10).1 = (0, []) ∧
    (extract_high_quality_screenshots (fun t : ℤ => decide (t ≠ 1)) 2 1 "video"
        true 10).2.writtenFiles = [screenshotFilename "video" 0 true] ∧
    (extract_high_quality_screenshots (fun _ : ℤ => true) 2 1 "video"
        true 10).1.1 = 3 := by
  refine ⟨rfl, rfl, rfl, ?_, ?_, ?_⟩ <;> decide

theorem extractLoop_interval_zero (pfx : String) (hq : Bool) :
    ∀ (fuel : ℕ) (s : ExtractState), s.currentTime = 0 →
      (extractLoop (fun _ => true) 1 0 pfx hq fuel s).1 = .outOfFuel ∧
      (extractLoop (fun _ => true) 1 0 pfx hq fuel s).2.capturesAttempted.length
        = s.capturesAttempted.length + fuel := by
  intro fuel
  induction fuel with
  | zero => intro s h0; exact ⟨rfl, rfl⟩
  | succ fuel ih =>
    intro s h0
    have hguard : (s.currentTime : ℚ) ≤ 1 := by rw [h0]; norm_num
    have hD : ¬ (1 : ℚ) = 0 := by norm_num
    rw [extractLoop_succ_step (fun _ => true) 1 0 pfx hq fuel s hguard rfl hD]
    have hrec := ih ⟨s.currentTime + 0, s.screenshotsTaken + 1,
      s.screenshotFiles ++ [screenshotFilename pfx s.currentTime.toNat hq],
      s.capturesAttempted ++ [s.currentTime],
      s.writtenFiles ++ [screenshotFilename pfx s.currentTime.toNat hq]⟩
      (by simp [h0])
    refine ⟨hrec.1, ?_⟩
    rw [hrec.2]
    simp
    omega

/-- **C3 (code evaluation at the failing input)** — With interval 0
(duration 1 s, all captures succeeding) the source raises no
`InvalidIntervalError` — no error at all: for every amount of fuel the
while-loop is still running (`current_time` never advances, so the guard
never becomes false and no exception is raised), and each of the `fuel`
iterations has invoked one ffmpeg frame capture.  In particular frame
capture IS invoked for the invalid interval, contrary to the claim. -/
theorem interval_zero_loops_forever (pfx : String) (hq : Bool) (fuel : ℕ) :
    (extractLoop (fun _ => true) 1 0 pfx hq fuel initExtractState).1 = .outOfFuel ∧
    (extractLoop (fun _ => true) 1 0 pfx hq fuel
        initExtractState).2.capturesAttempted.length = fuel := by
  have h := extractLoop_interval_zero pfx hq fuel initExtractState rfl
  exact ⟨h.1, by rw [h.2]; simp [initExtractState]⟩

/-- **C10** — For duration 0 and any interval > 0: the first iteration
captures and writes the frame at timestamp 0, then the progress
computation `current_time / duration` divides by zero; the
`ZeroDivisionError` is caught by the function-level handler and the
function returns `(0, [])` — although one frame was taken and its file
remains written in the output directory. -/
theorem zero_duration_division_error (I : ℤ) (hI : 0 < I) (capOk : ℤ → Bool)
    (h0 : capOk 0 = true) (pfx : String) (hq : Bool) (fuel : ℕ) :
    (extractLoop capOk 0 I pfx hq (fuel + 1) initExtractState).1 = .errored ∧
    (extract_high_quality_screenshots capOk 0 I pfx hq (fuel + 1)).1 = (0, []) ∧
    (extract_high_quality_screenshots capOk 0 I pfx hq (fuel + 1)).2.writtenFiles
      = [screenshotFilename pfx 0 hq] ∧
    (extract_high_quality_screenshots capOk 0 I pfx hq
        (fuel + 1)).2.screenshotsTaken = 1 := by
  have hguard : ((initExtractState.currentTime : ℚ)) ≤ 0 := by
    simp [initExtractState]
  have hcap : capOk initExtractState.currentTime = true := h0
  have hstep := extractLoop_divzero_step capOk I pfx hq fuel initExtractState hguard hcap
  refine ⟨by rw [hstep], ?_, ?_, ?_⟩ <;>
    rw [extract_high_quality_screenshots, hstep] <;>
    simp [initExtractState]

/-- Witness for C10 at interval 4, all captures succeeding, fuel 9 + 1. -/
theorem zero_duration_division_error_witness :
    ((0 : ℤ) < 4 ∧ (fun _ : ℤ => true) 0 = true) ∧
    (extractLoop (fun _ : ℤ => true) 0 4 "video" true 10 initExtractState).1
      = .errored ∧
    (extract_high_quality_screenshots (fun _ : ℤ => true) 0 4 "video" true 10).1
      = (0, []) ∧
    (extract_high_quality_screenshots (fun _ : ℤ => true) 0 4 "video" true
        10).2.writtenFiles = [screenshotFilename "video" 0 true] ∧
    (extract_high_quality_screenshots (fun _ : ℤ => true) 0 4 "video" true
        10).2.screenshotsTaken = 1 :=
  ⟨⟨by norm_num, rfl⟩,
    zero_duration_division_error 4 (by norm_num) (fun _ => true) rfl "video" true 9⟩

/- ### Pipeline orchestrator: `process_video` (lines 289-375)

External collaborators (yt-dlp metadata lookup, download, the PDF
builder) are oracles in `OrchEnv`; the per-path content fingerprints the
deduplicator would compute are given by `fpOf`. -/

/-- `sanitize_filename` (lines 22-31): drop invalid characters, strip
leading/trailing dots and spaces, replace spaces with underscores,
truncate to 100 characters. -/
def sanitize_filename (s : String) : String :=
  let invalid : List Char := ['<', '>', ':', '"', '/', '\\', '|', '?', '*']
  let cs := s.data.filter (fun c => !invalid.contains c)
  let cs := cs.dropWhile (fun c => c = '.' || c = ' ')
  let cs := (cs.reverse.dropWhile (fun c => c = '.' || c = ' ')).reverse
  let cs := cs.map (fun c => if c = ' ' then '_' else c)
  String.mk (cs.take 100)

/-- What `get_video_info` (lines 37-55) returns on success. -/
structure VideoInfo where
  title : String
  duration : ℚ
  uploader : String
  subtitlesAvailable : Bool

/-- Oracles for the external collaborators of `process_video`. -/
structure OrchEnv where
  videoInfo : Option VideoInfo
  downloadOk : Bool
  transcriptFound : Bool
  captureOk : ℤ → Bool
  fpOf : String → Option Fp
  pdfBuildOk : Bool
  fuel : ℕ

/-- `create_hd_pdf` (lines 228-255): returns whether the external PDF
build (img2pdf, or the Pillow fallback) succeeded. -/
def create_hd_pdf (env : OrchEnv) : Bool :=
  env.pdfBuildOk

/-- `process_video` (lines 289-375): info lookup, download, extraction,
deduplication, optional PDF build (its result is NOT consulted — line
345 ignores the return value of `create_hd_pdf`), returning `True` iff
at least one screenshot was extracted. -/
def process_video (env : OrchEnv) (interval : ℤ) (hq : Bool)
    (keepVideo noTranscript noPdf : Bool) : Bool :=
  match env.videoInfo with
  | none => false
  | some info =>
    if env.downloadOk = false then false
    else
      let safeTitle := sanitize_filename info.title
      let r := extract_high_quality_screenshots env.captureOk info.duration
        interval safeTitle hq env.fuel
      if 0 < r.1.1 then
        let _dups := remove_duplicate_screenshots
          (r.1.2.map (fun p => { path := p, fingerprint := env.fpOf p }))
        let _pdfOk := if noPdf = false then create_hd_pdf env else true
        true
      else false

/-- **C9** — A PDF-build failure never fails the pipeline: whenever the
video info and download succeed and extraction yields at least one
artifact, `process_video` reports success both when the document build
succeeds and when it fails (its boolean result is ignored). -/
theorem pdf_failure_does_not_fail_pipeline (env : OrchEnv) (interval : ℤ)
    (hq keepVideo noTranscript noPdf : Bool) (info : VideoInfo)
    (hinfo : env.videoInfo = some info) (hdl : env.downloadOk = true)
    (hcnt : 0 < (extract_high_quality_screenshots env.captureOk info.duration
      interval (sanitize_filename info.title) hq env.fuel).1.1) :
    process_video { env with pdfBuildOk := false } interval hq
      keepVideo noTranscript noPdf = true ∧
    process_video { env with pdfBuildOk := true } interval hq
      keepVideo noTranscript noPdf = true := by
  constructor <;>
    simp [process_video, hinfo, hdl, hcnt]

/-- Concrete environment for the C9 witness: metadata lookup, download
and every capture succeed; the PDF build FAILS. -/
def pdfFailEnv : OrchEnv :=
  { videoInfo := some ⟨"demo", 1, "up", false⟩
    downloadOk := true
    transcriptFound := false
    captureOk := fun _ => true
    fpOf := fun _ => some 0
    pdfBuildOk := false
    fuel := 10 }

/-- Witness for C9: a 1-second video at interval 1 (two frames) with a
failing document build still reports overall success. -/
theorem pdf_failure_does_not_fail_pipeline_witness :
    (pdfFailEnv.videoInfo = some ⟨"demo", 1, "up", false⟩ ∧
     pdfFailEnv.downloadOk = true ∧
     0 < (extract_high_quality_screenshots pdfFailEnv.captureOk (1 : ℚ) 1
       (sanitize_filename "demo") true pdfFailEnv.fuel).1.1) ∧
    process_video { pdfFailEnv with pdfBuildOk := false } 1 true
      false false false = true := by
  refine ⟨⟨rfl, rfl, by decide⟩, ?_⟩
  exact (pdf_failure_does_not_fail_pipeline pdfFailEnv 1 true false false false
    ⟨"demo", 1, "up", false⟩ rfl rfl (by decide)).1
